import Mathlib

/-!
Verification of the jec_api cross-cutting request pipeline.

Shallow embedding of the decorator modules of `src/jec_api`:

* `decorator/auth.py` — the authentication wrapper (`auth`, `async_wrapper`);
* `decorator/cache.py` — response caching (`_canonical_query`, `_default_key`,
  `_execute_and_cache`);
* `decorator/ratelimit.py` — sliding-window rate limiting (`_check_rate_limit`);
* `decorator/retry.py` — bounded retry with exponential backoff (`async_wrapper`);
* `route.py` — the naming-convention route deriver (`RouteMeta._parse_method_name`);
* `decorator/version.py` — the decoration-time constraint parse in `version`.

Conventions of the embedding:

* Wall-clock instants and delays are rationals (`ℚ`), standing for Python floats;
  the algorithms under study are generic in the ordered field of time values.
* Python exceptions become explicit result constructors (`Except`, or dedicated
  inductive outcome types); raising `HTTPException(status, detail)` becomes an
  `HTTPError` value.
* Python strings are Lean `String`s except in the route deriver and version
  parser, where identifiers are embedded as `List Char` (a Python `str` is a
  sequence of code points) so that splitting and prefix reasoning stays at the
  list level.
* The helper `find_request` (in the repository's `decorator/utils.py`) scans the
  call arguments for a request object; wrappers below take its result directly
  as an `Option Request` argument.
-/

namespace JecApi

/-- The request-context value the wrappers inspect: HTTP method, URL path,
multi-valued query parameters, and headers (looked up with a default). -/
structure Request where
  method : String
  path : String
  queryParams : List (String × String)
  headers : List (String × String)
deriving DecidableEq

/-! ## Auth wrapper (`decorator/auth.py`, `async_wrapper`) -/

/-- Outcome of one call of the registered auth handler, as observed by the
wrapper's try/except structure in `auth.py`: the handler returns `True`
(or anything that is not `False`), returns `False`, raises an
`HTTPException`, or raises any other exception. -/
inductive AuthHandlerResult where
  | accept
  | deny
  | raiseHTTP (status : ℤ) (detail : String)
  | raiseOther
deriving DecidableEq

/-- An `HTTPException(status_code, detail)` escaping a wrapper. -/
structure HTTPError where
  status : ℤ
  detail : String
deriving DecidableEq

/-- The auth handler delegate registered on the application
(`request.app.auth_handler`): it receives the request, the required roles and
scopes, and the require-all flag. -/
def AuthDelegate : Type :=
  Request → List String → List String → Bool → AuthHandlerResult

/-- `auth.py::async_wrapper`. Arguments: the decorator configuration
(`enabled`, `roles`, `scopes`, `require_all`, `custom_error`), the result of
`find_request(args, kwargs)`, the delegate registered on the app (if any), and
the wrapped handler (as a thunk). Returns the wrapper's result together with a
flag recording whether the wrapped handler was invoked.

Mirrors the source: when `enabled and request` holds, a missing delegate raises
`HTTPException(500, "Authentication is enabled but no handler is
configured.")`; a delegate returning `False` raises
`HTTPException(403, custom_error or "Not authenticated")`; an `HTTPException`
from the delegate is re-raised; any other exception becomes
`HTTPException(500, "Internal authentication error")`. Otherwise the wrapped
function is called. -/
def authWrapper {α : Type} (enabled : Bool) (roles scopes : List String)
    (requireAll : Bool) (customError : Option String)
    (request : Option Request) (authHandler : Option AuthDelegate)
    (handler : Unit → α) : Except HTTPError α × Bool :=
  match enabled, request with
  | true, some req =>
    match authHandler with
    | none =>
      (.error ⟨500, "Authentication is enabled but no handler is configured."⟩,
        false)
    | some h =>
      match h req roles scopes requireAll with
      | .accept => (.ok (handler ()), true)
      | .deny => (.error ⟨403, customError.getD "Not authenticated"⟩, false)
      | .raiseHTTP s d => (.error ⟨s, d⟩, false)
      | .raiseOther => (.error ⟨500, "Internal authentication error"⟩, false)
  | _, _ => (.ok (handler ()), true)

/-! ## Cache (`decorator/cache.py`) -/

/-- Comparison used by `sorted` in `_canonical_query`: Python sorts the
`(key, value)` string pairs lexicographically. -/
def pairLE (p q : String × String) : Bool :=
  if p.1 = q.1 then decide (p.2 ≤ q.2) else decide (p.1 < q.1)

/-- `cache.py::_canonical_query`: sort the multi-items of the query string and
join them as `k=v` pieces with `&`. -/
def canonicalQuery (params : List (String × String)) : String :=
  String.intercalate "&"
    ((params.mergeSort pairLE).map fun kv => kv.1 ++ "=" ++ kv.2)

/-- `request.headers.get(name, '')`. -/
def headerGetD (req : Request) (name : String) : String :=
  (req.headers.lookup name).getD ""

/-- `cache.py::_default_key`: method, path, canonical query and handler name,
followed by one `h:name=value` piece per `headers:name` item of `vary`
(`"query"` items are skipped, anything else is ignored), joined with `|`. -/
def defaultKey (funcName : String) (req : Request) (vary : List String) :
    String :=
  let pieces := [req.method.toUpper, req.path, canonicalQuery req.queryParams,
    funcName]
  let extras := vary.filterMap fun item =>
    if item = "query" then none
    else if "headers:".isPrefixOf item then
      some ("h:" ++ item.drop 8 ++ "=" ++ headerGetD req (item.drop 8))
    else none
  String.intercalate "|" (pieces ++ extras)

/-- `cache.py::CacheEntry`. -/
structure CacheEntry (V : Type) where
  value : V
  statusCode : ℤ
  contentType : String
  headers : List (String × String)
  expiresAt : ℚ
  staleUntil : ℚ
  etag : String
deriving DecidableEq

/-- The in-memory backend's `dict`, as an association list; reads use
`List.lookup`. -/
def CacheStore (V : Type) : Type := List (String × CacheEntry V)

/-- Backend `set`: `dict` assignment (the new binding shadows and replaces any
previous binding of the key). -/
def storeSet {V : Type} (key : String) (entry : CacheEntry V)
    (store : CacheStore V) : CacheStore V :=
  (key, entry) :: store.filter fun kv => !(kv.1 == key)

/-- Backend `get`. -/
def storeGet {V : Type} (store : CacheStore V) (key : String) :
    Option (CacheEntry V) :=
  List.lookup key store

/-- What `_execute_and_cache` did with the wrapped handler: served a fresh
cache hit, served a stale (within `stale_until`) hit, or executed the
handler. -/
inductive CacheOutcome where
  | freshHit
  | staleHit
  | executed
deriving DecidableEq

/-- `cache.py::_resolve_key`: a configured key template produces the key from
the request (the `str.format` instantiation is embedded as an opaque function
of the request); otherwise `_default_key` is used. -/
def resolveKey (keyOverride : Option (Request → String)) (funcName : String)
    (vary : List String) (req : Request) : String :=
  match keyOverride with
  | some f => f req
  | none => defaultKey funcName req vary

/-- `cache.py::_execute_and_cache`. The wrapped handler's behaviour is the
pair `handlerResult = (payload, statusCode)` (the payload as the JSON value it
serializes to; plain non-JSON `Response` results, which are passed through
uncached, are outside this model). `etagOf` stands for `_compute_etag`'s
content hash. Mirrors the source order: a missing request or `ttl == 0`
bypasses the cache; a fresh entry (`expires_at > now`) and then a stale entry
(`stale_until > now`) are served; otherwise the handler runs and the result is
stored unless its status is excluded (`>= 400`, or outside `{200, 203, 204}`,
when errors are not cacheable). -/
def executeAndCache {V : Type} (etagOf : V → String) (ttl swr : ℤ)
    (cacheErrors : Bool) (keyOverride : Option (Request → String))
    (funcName : String) (vary : List String) (store : CacheStore V)
    (request : Option Request) (now : ℚ) (handlerResult : V × ℤ) :
    CacheOutcome × CacheStore V :=
  match request with
  | none => (.executed, store)
  | some req =>
    if ttl = 0 then (.executed, store)
    else
      let cacheKey := resolveKey keyOverride funcName vary req
      let runHandler : CacheOutcome × CacheStore V :=
        let payload := handlerResult.1
        let status := handlerResult.2
        if cacheErrors = false ∧ 400 ≤ status then (.executed, store)
        else if (status ≠ 200 ∧ status ≠ 203 ∧ status ≠ 204) ∧
            cacheErrors = false then (.executed, store)
        else
          let etag := etagOf payload
          let entry : CacheEntry V :=
            { value := payload
              statusCode := status
              contentType := "application/json"
              headers := [("Cache-Control",
                  "public, max-age=" ++ toString ttl ++
                    ", stale-while-revalidate=" ++ toString swr),
                ("Vary", String.intercalate ", " vary)]
              expiresAt := now + (ttl : ℚ)
              staleUntil := now + (ttl : ℚ) + ((max swr 0 : ℤ) : ℚ)
              etag := etag }
          (.executed, storeSet cacheKey entry store)
      match storeGet store cacheKey with
      | some entry =>
        if now < entry.expiresAt then (.freshHit, store)
        else if now < entry.staleUntil then (.staleHit, store)
        else runHandler
      | none => runHandler

/-! ## Rate limiter (`decorator/ratelimit.py`, `_check_rate_limit`) -/

/-- Python `int(...)` applied to a (rational-valued) float: truncation toward
zero. On a reduced fraction this is T-division of the numerator by the
denominator. -/
def pyInt (q : ℚ) : ℤ :=
  Int.tdiv q.num (q.den : ℤ)

/-- Python `min` over a nonempty list (`0` as an unreachable default for the
empty list). -/
def listMin : List ℚ → ℚ
  | [] => 0
  | x :: xs => xs.foldl min x

/-- `ratelimit.py::_check_rate_limit` for one bucket. `limit` and `window` are
the decorator's integer configuration; `bucket` is `_rate_limit_store[key]`
and `now` is `time.time()`. Returns `(is_allowed, remaining, reset_seconds)`
together with the bucket as left in the store: old entries with
`ts <= now - window` are removed, and `now` is appended when the request is
admitted. -/
def checkRateLimit (limit window : ℤ) (bucket : List ℚ) (now : ℚ) :
    (Bool × ℤ × ℤ) × List ℚ :=
  let windowStart := now - (window : ℚ)
  let purged := bucket.filter fun ts => decide (windowStart < ts)
  let currentCount : ℤ := purged.length
  let remaining := max 0 (limit - currentCount - 1)
  if limit ≤ currentCount then
    let resetSeconds :=
      if purged = [] then window
      else pyInt (listMin purged + (window : ℚ) - now)
    ((false, 0, max 1 resetSeconds), purged)
  else
    let newBucket := purged ++ [now]
    let resetSeconds :=
      if newBucket = [] then window
      else pyInt (listMin newBucket + (window : ℚ) - now)
    ((true, remaining, max 1 resetSeconds), newBucket)

/-- The store contents after one `_check_rate_limit` call. -/
def rlStep (limit window : ℤ) (bucket : List ℚ) (now : ℚ) : List ℚ :=
  (checkRateLimit limit window bucket now).2

/-! ## Retry executor (`decorator/retry.py`, `async_wrapper`) -/

/-- Result of a retry run: the wrapped call's value, the exception finally
raised, or — for `attempts = 0`, where the loop body never runs and
`raise last_exception` raises `None` — a `TypeError` distinct from both. -/
inductive RetryOutcome (ε α : Type) where
  | success (a : α)
  | failure (e : ε)
  | noAttempt
deriving DecidableEq

/-- The loop of `retry.py::async_wrapper`, from the attempt numbered `k` with
`remaining` attempts (including `k`) still available, current backoff delay
`cur`, and the delays already slept in `waited`. `fn k` is the wrapped
operation's behaviour on attempt `k`; `isRetryable e` models membership of the
raised exception in the configured `exceptions` tuple (a non-member propagates
out of the loop immediately; a member is re-tried after sleeping `cur` and
multiplying it by `backoff`, or raised unchanged once attempts run out).
Returns (outcome, attempts used, delays slept). -/
def retryGo {ε α : Type} (fn : ℕ → Except ε α) (isRetryable : ε → Bool)
    (backoff : ℚ) (k remaining : ℕ) (cur : ℚ) (waited : List ℚ) :
    RetryOutcome ε α × ℕ × List ℚ :=
  match remaining with
  | 0 => (.noAttempt, k - 1, waited)
  | r + 1 =>
    match fn k with
    | .ok a => (.success a, k, waited)
    | .error e =>
      if isRetryable e then
        match r with
        | 0 => (.failure e, k, waited)
        | r' + 1 =>
          retryGo fn isRetryable backoff (k + 1) (r' + 1) (cur * backoff)
            (waited ++ [cur])
      else (.failure e, k, waited)

/-- `retry.py::async_wrapper`: run the loop from attempt 1 with the configured
`attempts`, initial `delay` and `backoff`. -/
def retryExec {ε α : Type} (fn : ℕ → Except ε α) (isRetryable : ε → Bool)
    (attempts : ℕ) (delay backoff : ℚ) : RetryOutcome ε α × ℕ × List ℚ :=
  if attempts = 0 then (.noAttempt, 0, [])
  else retryGo fn isRetryable backoff 1 attempts delay []

/-- The geometric backoff schedule: `[d, d*b, d*b^2, ...]` of length `n`. -/
def geomList (d b : ℚ) (n : ℕ) : List ℚ :=
  (List.range n).map fun i => d * b ^ i

/-! ## Route deriver (`route.py`, `RouteMeta._parse_method_name`)

Identifiers are embedded as `List Char` (a Python `str` is a sequence of code
points). -/

/-- Python `str.split(sep)` for a nonempty separator: split on the leftmost
occurrence of `sep` and continue after it (non-overlapping, left to right).
For an empty separator Python raises; that case is modelled as the identity
split and never reached here. -/
def pySplit (sep : List Char) (s : List Char) : List (List Char) :=
  if hsep : sep = [] then [s]
  else
    match s with
    | [] => [[]]
    | c :: rest =>
      if sep.isPrefixOf (c :: rest) then
        [] :: pySplit sep (List.drop sep.length (c :: rest))
      else
        match pySplit sep rest with
        | [] => [[c]]
        | t :: ts => (c :: t) :: ts
termination_by s.length
decreasing_by
· simp only [List.length_drop, List.length_cons]
  have hpos : 0 < sep.length := List.length_pos.mpr hsep
  omega
· simp

/-- The literal separator `"_by_"`. -/
def bySep : List Char := ['_', 'b', 'y', '_']

/-- `route.py::HTTP_METHODS` (iteration order is immaterial: no method equals
or is a `_`-prefix of another, so at most one can match an identifier). -/
def httpMethods : List (List Char) :=
  [['g', 'e', 't'], ['p', 'o', 's', 't'], ['p', 'u', 't'],
    ['d', 'e', 'l', 'e', 't', 'e'], ['p', 'a', 't', 'c', 'h'],
    ['o', 'p', 't', 'i', 'o', 'n', 's'], ['h', 'e', 'a', 'd']]

/-- `route.py::RouteMeta._parse_method_name`: lower-case the identifier, find
a verb matching by equality or `verb_` prefix (no match means the member is
not an endpoint), split the remainder on `_by_` into the literal part and the
parameters, split the literal part on `_`, wrap each parameter in braces, and
join everything under a leading `/` (the bare verb maps to `/`). -/
def parseMethodName (name : List Char) : Option (List Char × List Char) :=
  let nameLower := name.map Char.toLower
  match httpMethods.find? (fun m =>
      nameLower == m || (m ++ ['_']).isPrefixOf nameLower) with
  | none => none
  | some m =>
    let httpMethod := m.map Char.toUpper
    let partsBy := pySplit bySep nameLower
    let mainPart := partsBy.headD []
    let mainSegments := pySplit ['_'] mainPart
    let pathSegments := mainSegments.drop 1
    let paramParts := (partsBy.drop 1).map fun p => '{' :: p ++ ['}']
    let finalParts := pathSegments ++ paramParts
    if finalParts = [] then some (httpMethod, ['/'])
    else some (httpMethod, '/' :: List.intercalate ['/'] finalParts)

/-! ## Version constraint parse (`decorator/version.py`, decoration time)

`version(constraint, ...)` parses the constraint before building any wrapper:
`re.match(r'^(>=|<=|>|<|==|!=)?(.+)$', constraint.strip())`, operator
defaulting to `==`, then `re.match(r'^\d+(\.\d+)*', required_version)` (which,
being unanchored on the right, only requires a leading digit). A failure
raises `ValueError` at decoration time, before any request is served; the
embedding returns `Except.error` for that case. -/

/-- Python `str.strip()`: drop whitespace from both ends. -/
def pyStrip (s : List Char) : List Char :=
  ((s.dropWhile Char.isWhitespace).reverse.dropWhile Char.isWhitespace).reverse

/-- The operator alternatives of the constraint regex, in alternation order. -/
def versionOps : List (List Char) :=
  [['>', '='], ['<', '='], ['>'], ['<'], ['=', '='], ['!', '=']]

/-- The regex match `^(op)?(.+)$` on the stripped constraint: the alternation
tries the operators in order, an operator only matches when a nonempty
remainder is left for `(.+)`, and otherwise the optional group is skipped
(requiring the whole string nonempty). Returns (matched operator or `[]`,
remainder). -/
def matchConstraint (s : List Char) : Option (List Char × List Char) :=
  match versionOps.find? (fun op =>
      op.isPrefixOf s && !(List.isEmpty (s.drop op.length))) with
  | some op => some (op, s.drop op.length)
  | none => if s = [] then none else some ([], s)

/-- `re.match(r'^\d+(\.\d+)*', v)` succeeds exactly when `v` starts with a
digit (the pattern is unanchored at the end). -/
def startsWithDigit (s : List Char) : Bool :=
  match s with
  | [] => false
  | c :: _ => c.isDigit

/-- The decoration-time parse in `version.py::version`: `.ok (operator,
requiredVersion)` when the constraint parses, `.error msg` for the
`ValueError` raised at decoration time (before any request is served). -/
def versionDecorator (constraint : List Char) :
    Except (List Char) (List Char × List Char) :=
  let s := pyStrip constraint
  match matchConstraint s with
  | none => .error ("Invalid version constraint: ".data ++ constraint)
  | some (opRaw, rest) =>
    let op := if opRaw = [] then ['=', '='] else opRaw
    let requiredVersion := pyStrip rest
    if startsWithDigit requiredVersion then .ok (op, requiredVersion)
    else .error ("Invalid version format: ".data ++ requiredVersion)

end JecApi

namespace JecApi

/-- C1: with auth enabled and a request found, a missing auth delegate yields
the 500-equivalent configuration error and the wrapped handler is never
invoked, for every choice of roles, scopes, require-all flag and custom error
message (in particular for empty roles and scopes). -/
theorem auth_enabled_no_delegate_is_500 {α : Type}
    (roles scopes : List String) (requireAll : Bool)
    (customError : Option String) (req : Request) (handler : Unit → α) :
    authWrapper true roles scopes requireAll customError (some req) none
        handler =
      (.error ⟨500, "Authentication is enabled but no handler is configured."⟩,
        false) := by
  rfl

/-- C10: when `find_request` finds no request among the call arguments, the
auth wrapper skips the delegate lookup and the authentication check entirely
and invokes the wrapped handler directly, whatever delegate is (or is not)
registered — even with `enabled = true`. -/
theorem auth_no_request_bypasses_auth {α : Type}
    (roles scopes : List String) (requireAll : Bool)
    (customError : Option String) (authHandler : Option AuthDelegate)
    (handler : Unit → α) :
    authWrapper true roles scopes requireAll customError none authHandler
        handler =
      (.ok (handler ()), true) := by
  rfl

lemma pairLE_trans (a b c : String × String) (hab : pairLE a b = true)
    (hbc : pairLE b c = true) : pairLE a c = true := by
  unfold pairLE at *
  by_cases h1 : a.1 = b.1 <;> by_cases h2 : b.1 = c.1
  · rw [if_pos h1] at hab
    rw [if_pos h2] at hbc
    rw [if_pos (h1.trans h2)]
    simp only [decide_eq_true_eq] at *
    exact le_trans hab hbc
  · rw [if_pos h1] at hab
    rw [if_neg h2] at hbc
    have hne : a.1 ≠ c.1 := by rw [h1]; exact h2
    rw [if_neg hne, h1]
    exact hbc
  · rw [if_neg h1] at hab
    rw [if_pos h2] at hbc
    have hne : a.1 ≠ c.1 := by rw [← h2]; exact h1
    rw [if_neg hne, ← h2]
    exact hab
  · rw [if_neg h1] at hab
    rw [if_neg h2] at hbc
    simp only [decide_eq_true_eq] at hab hbc
    have hac := lt_trans hab hbc
    rw [if_neg (ne_of_lt hac)]
    simp only [decide_eq_true_eq]
    exact hac

lemma pairLE_total (a b : String × String) :
    (pairLE a b || pairLE b a) = true := by
  unfold pairLE
  by_cases h : a.1 = b.1
  · rw [if_pos h, if_pos h.symm]
    simp only [Bool.or_eq_true, decide_eq_true_eq]
    exact le_total a.2 b.2
  · rw [if_neg h, if_neg (fun hh => h hh.symm)]
    simp only [Bool.or_eq_true, decide_eq_true_eq]
    exact lt_or_gt_of_ne h

lemma pairLE_antisymm (a b : String × String) (hab : pairLE a b = true)
    (hba : pairLE b a = true) : a = b := by
  unfold pairLE at hab hba
  by_cases h : a.1 = b.1
  · rw [if_pos h] at hab
    rw [if_pos h.symm] at hba
    simp only [decide_eq_true_eq] at hab hba
    exact Prod.ext h (le_antisymm hab hba)
  · rw [if_neg h] at hab
    rw [if_neg (fun hh => h hh.symm)] at hba
    simp only [decide_eq_true_eq] at hab hba
    exact absurd hba (lt_asymm hab)

/-- Permutation-congruence of the sort inside `_canonical_query`. -/
lemma mergeSort_pairLE_congr {l l' : List (String × String)}
    (h : l.Perm l') : l.mergeSort pairLE = l'.mergeSort pairLE := by
  haveI : IsAntisymm (String × String) (fun a b => pairLE a b = true) :=
    ⟨pairLE_antisymm⟩
  exact List.eq_of_perm_of_sorted
    ((List.mergeSort_perm l _).trans (h.trans (List.mergeSort_perm l' _).symm))
    (List.sorted_mergeSort pairLE_trans pairLE_total l)
    (List.sorted_mergeSort pairLE_trans pairLE_total l')

lemma canonicalQuery_perm {l l' : List (String × String)} (h : l.Perm l') :
    canonicalQuery l = canonicalQuery l' := by
  unfold canonicalQuery
  rw [mergeSort_pairLE_congr h]

lemma defaultKey_perm (funcName : String) (vary : List String)
    (method path : String) (headers : List (String × String))
    {q q' : List (String × String)} (h : q.Perm q') :
    defaultKey funcName ⟨method, path, q, headers⟩ vary =
      defaultKey funcName ⟨method, path, q', headers⟩ vary := by
  unfold defaultKey
  simp only [canonicalQuery_perm h]
  rfl

/-- C2: a cache read against an existing entry at time `now` serves the cached
value as a fresh hit when `now < expiresAt`, still serves it as a stale hit
when `expiresAt ≤ now < staleUntil`, and otherwise is a miss: the wrapped
handler executes. (`ttl ≠ 0`, since a zero TTL disables the cache wholesale.) -/
theorem cache_read_freshness {V : Type} (etagOf : V → String) (ttl swr : ℤ)
    (httl : ttl ≠ 0) (cacheErrors : Bool)
    (keyOverride : Option (Request → String)) (funcName : String)
    (vary : List String) (store : CacheStore V) (req : Request) (now : ℚ)
    (handlerResult : V × ℤ) (entry : CacheEntry V)
    (hlook : storeGet store (resolveKey keyOverride funcName vary req) =
      some entry) :
    (now < entry.expiresAt →
      executeAndCache etagOf ttl swr cacheErrors keyOverride funcName vary
        store (some req) now handlerResult = (.freshHit, store)) ∧
    (entry.expiresAt ≤ now → now < entry.staleUntil →
      executeAndCache etagOf ttl swr cacheErrors keyOverride funcName vary
        store (some req) now handlerResult = (.staleHit, store)) ∧
    (entry.expiresAt ≤ now → entry.staleUntil ≤ now →
      (executeAndCache etagOf ttl swr cacheErrors keyOverride funcName vary
        store (some req) now handlerResult).1 = .executed) := by
  simp only [executeAndCache, if_neg httl, hlook]
  refine ⟨fun hf => ?_, fun he hs => ?_, fun he hm => ?_⟩
  · rw [if_pos hf]
  · rw [if_neg (not_lt.mpr he), if_pos hs]
  · rw [if_neg (not_lt.mpr he), if_neg (not_lt.mpr hm)]
    split_ifs <;> rfl

/-- Witness for C2 at concrete values: a read at `now = 50` against an entry
with `expiresAt = 100` is a fresh hit. -/
theorem cache_read_freshness_witness :
    executeAndCache (fun _ : ℕ => "e") 60 0 false (some fun _ => "k") "F.get"
        ["query"] [("k", ⟨7, 200, "application/json", [], 100, 130, "e"⟩)]
        (some ⟨"GET", "/x", [], []⟩) 50 (7, 200) =
      (.freshHit,
        [("k", ⟨7, 200, "application/json", [], 100, 130, "e"⟩)]) :=
  (cache_read_freshness (fun _ : ℕ => "e") 60 0 (by norm_num) false
      (some fun _ => "k") "F.get" ["query"]
      [("k", ⟨7, 200, "application/json", [], 100, 130, "e"⟩)]
      ⟨"GET", "/x", [], []⟩ 50 (7, 200)
      ⟨7, 200, "application/json", [], 100, 130, "e"⟩ rfl).1 (by norm_num)

/-- A miss on the empty store under `cache(ttl=60)` defaults executes the
handler and stores the entry under the default key. -/
lemma executeAndCache_miss_empty {V : Type} (etagOf : V → String)
    (funcName : String) (req : Request) (t : ℚ) (v : V) :
    executeAndCache etagOf 60 0 false none funcName ["query"] [] (some req) t
        (v, 200) =
      (.executed, [(defaultKey funcName req ["query"],
        ⟨v, 200, "application/json",
          [("Cache-Control", "public, max-age=" ++ toString (60 : ℤ) ++
              ", stale-while-revalidate=" ++ toString (0 : ℤ)),
            ("Vary", String.intercalate ", " ["query"])],
          t + ((60 : ℤ) : ℚ), t + ((60 : ℤ) : ℚ) + ((max (0 : ℤ) 0 : ℤ) : ℚ),
          etagOf v⟩)]) := by
  simp only [executeAndCache, resolveKey, storeGet, List.lookup, storeSet,
    List.filter_nil]
  norm_num

/-- C6: the derived cache key does not depend on the order of the query
parameters (two requests agreeing in method, path, headers and handler
identity, whose query multi-items are permutations of one another, derive
equal keys under every `vary` configuration); consequently, under
`cache(ttl=60)` with default options, after a first request executes and
caches, a second request with the query parameters permuted and issued before
the TTL expires is served as a cache hit. -/
theorem cache_key_query_order_irrelevant {V : Type} (etagOf : V → String)
    (funcName : String) (vary : List String) (method path : String)
    (headers : List (String × String)) (q q' : List (String × String))
    (hperm : q.Perm q') (v : V) (handlerResult' : V × ℤ) (t t' : ℚ)
    (ht : t' < t + 60) :
    defaultKey funcName ⟨method, path, q, headers⟩ vary =
      defaultKey funcName ⟨method, path, q', headers⟩ vary ∧
    (executeAndCache etagOf 60 0 false none funcName ["query"] []
        (some ⟨method, path, q, headers⟩) t (v, 200)).1 = .executed ∧
    (executeAndCache etagOf 60 0 false none funcName ["query"]
        (executeAndCache etagOf 60 0 false none funcName ["query"] []
          (some ⟨method, path, q, headers⟩) t (v, 200)).2
        (some ⟨method, path, q', headers⟩) t' handlerResult').1 =
      .freshHit := by
  have hkey := defaultKey_perm funcName ["query"] method path headers hperm
  refine ⟨defaultKey_perm funcName vary method path headers hperm, ?_, ?_⟩
  · rw [executeAndCache_miss_empty]
  · rw [executeAndCache_miss_empty]
    simp only [executeAndCache, resolveKey, storeGet]
    rw [← hkey]
    simp only [List.lookup, beq_self_eq_true, if_true, cond_true]
    norm_num
    rw [if_pos ht]

/-- Witness for C6 at concrete values: two requests to `GET /items` with the
same query pairs in different orders share a key, and the second (at `t = 30`
after a write at `t = 0` with `ttl = 60`) is a fresh hit. -/
theorem cache_key_query_order_irrelevant_witness :
    defaultKey "Items.get" ⟨"GET", "/items", [("b", "2"), ("a", "1")], []⟩
        ["query"] =
      defaultKey "Items.get" ⟨"GET", "/items", [("a", "1"), ("b", "2")], []⟩
        ["query"] ∧
    (executeAndCache (fun _ : ℕ => "h") 60 0 false none "Items.get" ["query"]
        [] (some ⟨"GET", "/items", [("b", "2"), ("a", "1")], []⟩) 0
        (7, 200)).1 = .executed ∧
    (executeAndCache (fun _ : ℕ => "h") 60 0 false none "Items.get" ["query"]
        (executeAndCache (fun _ : ℕ => "h") 60 0 false none "Items.get"
          ["query"] [] (some ⟨"GET", "/items", [("b", "2"), ("a", "1")], []⟩) 0
          (7, 200)).2
        (some ⟨"GET", "/items", [("a", "1"), ("b", "2")], []⟩) 30
        (8, 200)).1 = .freshHit :=
  cache_key_query_order_irrelevant (fun _ : ℕ => "h") "Items.get" ["query"]
    "GET" "/items" [] [("b", "2"), ("a", "1")] [("a", "1"), ("b", "2")]
    (by decide) 7 (8, 200) 0 30 (by norm_num)

/-- Denial branch of `_check_rate_limit`. -/
lemma checkRateLimit_deny (limit window : ℤ) (bucket : List ℚ) (now : ℚ)
    (h : limit ≤
      ((bucket.filter fun ts => decide (now - (window : ℚ) < ts)).length :
        ℤ)) :
    checkRateLimit limit window bucket now =
      ((false, 0, max 1
          (if (bucket.filter fun ts => decide (now - (window : ℚ) < ts)) = []
            then window
            else pyInt
              (listMin (bucket.filter fun ts =>
                decide (now - (window : ℚ) < ts)) + (window : ℚ) - now))),
        bucket.filter fun ts => decide (now - (window : ℚ) < ts)) := by
  unfold checkRateLimit
  rw [if_pos h]

/-- Admission branch of `_check_rate_limit`. -/
lemma checkRateLimit_allow (limit window : ℤ) (bucket : List ℚ) (now : ℚ)
    (h : ((bucket.filter fun ts => decide (now - (window : ℚ) < ts)).length :
      ℤ) < limit) :
    checkRateLimit limit window bucket now =
      ((true,
        max 0 (limit -
          ((bucket.filter fun ts =>
            decide (now - (window : ℚ) < ts)).length : ℤ) - 1),
        max 1 (pyInt
          (listMin ((bucket.filter fun ts =>
              decide (now - (window : ℚ) < ts)) ++ [now]) +
            (window : ℚ) - now))),
        (bucket.filter fun ts => decide (now - (window : ℚ) < ts)) ++
          [now]) := by
  unfold checkRateLimit
  rw [if_neg (not_le.mpr h)]
  simp

/-- One `_check_rate_limit` call keeps the stored bucket within `limit`. -/
lemma rlStep_length_le (limit window : ℤ) (bucket : List ℚ) (now : ℚ)
    (h : (bucket.length : ℤ) ≤ limit) :
    ((rlStep limit window bucket now).length : ℤ) ≤ limit := by
  unfold rlStep
  by_cases hc : limit ≤
      ((bucket.filter fun ts => decide (now - (window : ℚ) < ts)).length : ℤ)
  · rw [checkRateLimit_deny limit window bucket now hc]
    calc ((bucket.filter fun ts =>
          decide (now - (window : ℚ) < ts)).length : ℤ)
        ≤ (bucket.length : ℤ) := by
          exact_mod_cast List.length_filter_le _ bucket
      _ ≤ limit := h
  · rw [checkRateLimit_allow limit window bucket now (not_le.mp hc)]
    have hc' := not_le.mp hc
    simp only [List.length_append, List.length_singleton]
    push_cast
    omega

/-- Buckets reached from the empty bucket stay within `limit`. -/
lemma foldl_rlStep_length_le (limit window : ℤ) (hl : 0 ≤ limit)
    (times : List ℚ) :
    (((times.foldl (rlStep limit window) []).length : ℤ)) ≤ limit := by
  have main : ∀ (ts : List ℚ) (b : List ℚ), (b.length : ℤ) ≤ limit →
      (((ts.foldl (rlStep limit window) b).length : ℤ)) ≤ limit := by
    intro ts
    induction ts with
    | nil => intro b hb; simpa using hb
    | cons t ts ih =>
      intro b hb
      exact ih _ (rlStep_length_le limit window b t hb)
  exact main times [] (by simpa using hl)

/-- C8: for every sequence of `_check_rate_limit` calls starting from the
empty bucket, the stored bucket never exceeds `limit` entries, and hence
neither does any post-purge view of it; moreover `now` is inserted exactly
when the post-purge count is strictly below `limit` (the denial path stores
the purged bucket unchanged). -/
theorem ratelimit_bucket_size_invariant (limit window : ℤ) (hl : 0 ≤ limit) :
    (∀ times : List ℚ,
      ((times.foldl (rlStep limit window) []).length : ℤ) ≤ limit) ∧
    (∀ (times : List ℚ) (now : ℚ),
      (((times.foldl (rlStep limit window) []).filter fun ts =>
        decide (now - (window : ℚ) < ts)).length : ℤ) ≤ limit) ∧
    (∀ (bucket : List ℚ) (now : ℚ),
      limit ≤
        ((bucket.filter fun ts => decide (now - (window : ℚ) < ts)).length :
          ℤ) →
      rlStep limit window bucket now =
        bucket.filter fun ts => decide (now - (window : ℚ) < ts)) ∧
    (∀ (bucket : List ℚ) (now : ℚ),
      ((bucket.filter fun ts => decide (now - (window : ℚ) < ts)).length :
          ℤ) < limit →
      rlStep limit window bucket now =
        (bucket.filter fun ts => decide (now - (window : ℚ) < ts)) ++
          [now]) := by
  refine ⟨foldl_rlStep_length_le limit window hl, fun times now => ?_,
    fun bucket now h => ?_, fun bucket now h => ?_⟩
  · calc (((times.foldl (rlStep limit window) []).filter fun ts =>
          decide (now - (window : ℚ) < ts)).length : ℤ)
        ≤ (((times.foldl (rlStep limit window) []).length : ℤ)) := by
          exact_mod_cast List.length_filter_le _ _
      _ ≤ limit := foldl_rlStep_length_le limit window hl times
  · unfold rlStep
    rw [checkRateLimit_deny limit window bucket now h]
  · unfold rlStep
    rw [checkRateLimit_allow limit window bucket now h]

/-- Witness for C8 at `limit = 3`, `window = 60`: three requests at times 0,
10, 20 leave a bucket of at most 3 entries. -/
theorem ratelimit_bucket_size_invariant_witness :
    ((([0, 10, 20] : List ℚ).foldl (rlStep 3 60) []).length : ℤ) ≤ 3 :=
  (ratelimit_bucket_size_invariant 3 60 (by norm_num)).1 [0, 10, 20]

/-- C3: the sliding-window check purges the timestamps that have left the
trailing window, denies (with `remaining = 0` and a reset of at least one
second) when the post-purge count reaches `limit`, and otherwise records `now`
and allows with `remaining = max 0 (limit - count - 1)`; with `limit = 3`,
`window = 60` and an empty starting bucket, three requests within the window
are admitted (with remaining 2, 1, 0), the fourth inside the window is denied
with `remaining = 0` and a positive reset, and a request issued more than 60
seconds after the first is admitted again. -/
theorem ratelimit_sliding_window (limit window : ℤ) (t0 t1 t2 t3 t4 : ℚ)
    (h01 : t0 ≤ t1) (h12 : t1 ≤ t2) (h23 : t2 ≤ t3) (h3w : t3 < t0 + 60)
    (h4w : t0 + 60 < t4) :
    (∀ (bucket : List ℚ) (now : ℚ),
      limit ≤
        ((bucket.filter fun ts => decide (now - (window : ℚ) < ts)).length :
          ℤ) →
      (checkRateLimit limit window bucket now).1.1 = false ∧
      (checkRateLimit limit window bucket now).1.2.1 = 0 ∧
      1 ≤ (checkRateLimit limit window bucket now).1.2.2 ∧
      (checkRateLimit limit window bucket now).2 =
        bucket.filter fun ts => decide (now - (window : ℚ) < ts)) ∧
    (∀ (bucket : List ℚ) (now : ℚ),
      ((bucket.filter fun ts => decide (now - (window : ℚ) < ts)).length :
          ℤ) < limit →
      (checkRateLimit limit window bucket now).1.1 = true ∧
      (checkRateLimit limit window bucket now).1.2.1 =
        max 0 (limit -
          ((bucket.filter fun ts =>
            decide (now - (window : ℚ) < ts)).length : ℤ) - 1) ∧
      (checkRateLimit limit window bucket now).2 =
        (bucket.filter fun ts => decide (now - (window : ℚ) < ts)) ++
          [now]) ∧
    ((checkRateLimit 3 60 [] t0).1.1 = true ∧
      (checkRateLimit 3 60 [] t0).1.2.1 = 2 ∧
      (checkRateLimit 3 60 [t0] t1).1.1 = true ∧
      (checkRateLimit 3 60 [t0] t1).1.2.1 = 1 ∧
      (checkRateLimit 3 60 [t0, t1] t2).1.1 = true ∧
      (checkRateLimit 3 60 [t0, t1] t2).1.2.1 = 0 ∧
      (checkRateLimit 3 60 [] t0).2 = [t0] ∧
      (checkRateLimit 3 60 [t0] t1).2 = [t0, t1] ∧
      (checkRateLimit 3 60 [t0, t1] t2).2 = [t0, t1, t2] ∧
      (checkRateLimit 3 60 [t0, t1, t2] t3).1.1 = false ∧
      (checkRateLimit 3 60 [t0, t1, t2] t3).1.2.1 = 0 ∧
      1 ≤ (checkRateLimit 3 60 [t0, t1, t2] t3).1.2.2 ∧
      (checkRateLimit 3 60 [t0, t1, t2] t3).2 = [t0, t1, t2] ∧
      (checkRateLimit 3 60 [t0, t1, t2] t4).1.1 = true) := by
  refine ⟨fun bucket now h => ?_, fun bucket now h => ?_, ?_⟩
  · rw [checkRateLimit_deny limit window bucket now h]
    exact ⟨rfl, rfl, le_max_left 1 _, rfl⟩
  · rw [checkRateLimit_allow limit window bucket now h]
    exact ⟨rfl, rfl, rfl⟩
  · have hfil0 : ([] : List ℚ).filter
        (fun ts => decide (t0 - ((60 : ℤ) : ℚ) < ts)) = [] :=
      List.filter_nil _
    have hfil1 : [t0].filter (fun ts => decide (t1 - ((60 : ℤ) : ℚ) < ts)) =
        [t0] := by
      rw [List.filter_cons,
        if_pos (decide_eq_true
          (show t1 - ((60 : ℤ) : ℚ) < t0 by push_cast; linarith)),
        List.filter_nil]
    have hfil2 : [t0, t1].filter
        (fun ts => decide (t2 - ((60 : ℤ) : ℚ) < ts)) = [t0, t1] := by
      rw [List.filter_cons,
        if_pos (decide_eq_true
          (show t2 - ((60 : ℤ) : ℚ) < t0 by push_cast; linarith)),
        List.filter_cons,
        if_pos (decide_eq_true
          (show t2 - ((60 : ℤ) : ℚ) < t1 by push_cast; linarith)),
        List.filter_nil]
    have hfil3 : [t0, t1, t2].filter
        (fun ts => decide (t3 - ((60 : ℤ) : ℚ) < ts)) = [t0, t1, t2] := by
      rw [List.filter_cons,
        if_pos (decide_eq_true
          (show t3 - ((60 : ℤ) : ℚ) < t0 by push_cast; linarith)),
        List.filter_cons,
        if_pos (decide_eq_true
          (show t3 - ((60 : ℤ) : ℚ) < t1 by push_cast; linarith)),
        List.filter_cons,
        if_pos (decide_eq_true
          (show t3 - ((60 : ℤ) : ℚ) < t2 by push_cast; linarith)),
        List.filter_nil]
    have hlt0 : ((([] : List ℚ).filter
        (fun ts => decide (t0 - ((60 : ℤ) : ℚ) < ts))).length : ℤ) < 3 := by
      rw [hfil0]; norm_num
    have hlt1 : (([t0].filter
        (fun ts => decide (t1 - ((60 : ℤ) : ℚ) < ts))).length : ℤ) < 3 := by
      rw [hfil1]; norm_num
    have hlt2 : (([t0, t1].filter
        (fun ts => decide (t2 - ((60 : ℤ) : ℚ) < ts))).length : ℤ) < 3 := by
      rw [hfil2]; norm_num
    have hge3 : (3 : ℤ) ≤ (([t0, t1, t2].filter
        (fun ts => decide (t3 - ((60 : ℤ) : ℚ) < ts))).length : ℤ) := by
      rw [hfil3]; norm_num
    have hfil4 : [t0, t1, t2].filter
        (fun ts => decide (t4 - ((60 : ℤ) : ℚ) < ts)) =
        [t1, t2].filter (fun ts => decide (t4 - ((60 : ℤ) : ℚ) < ts)) := by
      rw [List.filter_cons, if_neg]
      simp only [decide_eq_true_eq]
      push_cast
      linarith
    have hlt4 : (([t0, t1, t2].filter
        (fun ts => decide (t4 - ((60 : ℤ) : ℚ) < ts))).length : ℤ) < 3 := by
      rw [hfil4]
      have hle := List.length_filter_le
        (fun ts => decide (t4 - ((60 : ℤ) : ℚ) < ts)) [t1, t2]
      simp only [List.length_cons, List.length_nil] at hle
      omega
    have ha0 := checkRateLimit_allow 3 60 [] t0 hlt0
    have ha1 := checkRateLimit_allow 3 60 [t0] t1 hlt1
    have ha2 := checkRateLimit_allow 3 60 [t0, t1] t2 hlt2
    have hd3 := checkRateLimit_deny 3 60 [t0, t1, t2] t3 hge3
    have ha4 := checkRateLimit_allow 3 60 [t0, t1, t2] t4 hlt4
    rw [hfil0] at ha0
    rw [hfil1] at ha1
    rw [hfil2] at ha2
    rw [hfil3] at hd3
    refine ⟨by rw [ha0], by rw [ha0]; norm_num, by rw [ha1],
      by rw [ha1]; norm_num, by rw [ha2], by rw [ha2]; norm_num,
      by rw [ha0]; rfl, by rw [ha1]; rfl, by rw [ha2]; rfl, by rw [hd3],
      by rw [hd3],
      by rw [hd3]; exact le_max_left 1 _, by rw [hd3], by rw [ha4]⟩

/-- Witness for C3 at times 0, 10, 20, 30, 70: the first admission of the
concrete scenario. -/
theorem ratelimit_sliding_window_witness :
    (checkRateLimit 3 60 [] (0 : ℚ)).1.1 = true :=
  (ratelimit_sliding_window 3 60 0 10 20 30 70 (by norm_num) (by norm_num)
    (by norm_num) (by norm_num) (by norm_num)).2.2.1

section Retry

variable {ε α : Type} (fn : ℕ → Except ε α) (isRetryable : ε → Bool)

/-- A successful attempt returns its value at once. -/
lemma retryGo_ok (backoff : ℚ) (k r : ℕ) (cur : ℚ) (w : List ℚ) {a : α}
    (h : fn k = .ok a) :
    retryGo fn isRetryable backoff k (r + 1) cur w = (.success a, k, w) := by
  unfold retryGo
  rw [h]

/-- An error on the final attempt is raised unchanged. -/
lemma retryGo_err_final (backoff : ℚ) (k : ℕ) (cur : ℚ) (w : List ℚ) {e : ε}
    (h : fn k = .error e) :
    retryGo fn isRetryable backoff k 1 cur w = (.failure e, k, w) := by
  unfold retryGo
  rw [h]
  by_cases hr : isRetryable e <;> simp [hr]

/-- A retryable error with attempts to spare sleeps `cur` and retries. -/
lemma retryGo_err_retry (backoff : ℚ) (k r : ℕ) (cur : ℚ) (w : List ℚ)
    {e : ε} (h : fn k = .error e) (hr : isRetryable e = true) :
    retryGo fn isRetryable backoff k (r + 1 + 1) cur w =
      retryGo fn isRetryable backoff (k + 1) (r + 1) (cur * backoff)
        (w ++ [cur]) := by
  conv_lhs => rw [retryGo.eq_def]
  dsimp only
  rw [h]
  dsimp only
  rw [hr]
  simp

/-- A non-retryable error propagates immediately. -/
lemma retryGo_err_stop (backoff : ℚ) (k r : ℕ) (cur : ℚ) (w : List ℚ)
    {e : ε} (h : fn k = .error e) (hr : isRetryable e = false) :
    retryGo fn isRetryable backoff k (r + 1) cur w = (.failure e, k, w) := by
  unfold retryGo
  rw [h]
  rcases r with _ | r' <;> simp [hr]

lemma geomList_zero (d b : ℚ) : geomList d b 0 = [] := rfl

lemma geomList_succ (d b : ℚ) (n : ℕ) :
    geomList d b (n + 1) = geomList d b n ++ [d * b ^ n] := by
  unfold geomList
  rw [List.range_succ, List.map_append]
  rfl

/-- Main loop invariant: starting attempt `j + 1` with the delay and slept
list dictated by the geometric schedule, the run uses between `j + 1` and
`j + r + 1` attempts and its slept list is exactly the schedule's prefix of
length (attempts used - 1). -/
lemma retryGo_spec (d b : ℚ) : ∀ (r j : ℕ) (cur : ℚ) (w : List ℚ),
    cur = d * b ^ j → w = geomList d b j →
    (retryGo fn isRetryable b (j + 1) (r + 1) cur w).2.2 =
      geomList d b
        ((retryGo fn isRetryable b (j + 1) (r + 1) cur w).2.1 - 1) ∧
    j + 1 ≤ (retryGo fn isRetryable b (j + 1) (r + 1) cur w).2.1 ∧
    (retryGo fn isRetryable b (j + 1) (r + 1) cur w).2.1 ≤ j + r + 1 := by
  intro r
  induction r with
  | zero =>
    intro j cur w hcur hw
    rcases hfn : fn (j + 1) with e | a
    · rw [retryGo_err_final fn isRetryable b (j + 1) cur w hfn]
      exact ⟨by simp [hw], le_refl _, by dsimp only; omega⟩
    · rw [retryGo_ok fn isRetryable b (j + 1) 0 cur w hfn]
      exact ⟨by simp [hw], le_refl _, by dsimp only; omega⟩
  | succ r ih =>
    intro j cur w hcur hw
    rcases hfn : fn (j + 1) with e | a
    · by_cases hr : isRetryable e
      · rw [retryGo_err_retry fn isRetryable b (j + 1) r cur w hfn hr]
        have hcur' : cur * b = d * b ^ (j + 1) := by
          rw [hcur, pow_succ, mul_assoc]
        have hw' : w ++ [cur] = geomList d b (j + 1) := by
          rw [hw, hcur, geomList_succ]
        have := ih (j + 1) (cur * b) (w ++ [cur]) hcur' hw'
        exact ⟨this.1, le_trans (by omega) this.2.1,
          le_trans this.2.2 (by omega)⟩
      · rw [retryGo_err_stop fn isRetryable b (j + 1) (r + 1) cur w hfn
          (by simpa using hr)]
        exact ⟨by simp [hw], le_refl _, by dsimp only; omega⟩
    · rw [retryGo_ok fn isRetryable b (j + 1) (r + 1) cur w hfn]
      exact ⟨by simp [hw], le_refl _, by dsimp only; omega⟩

/-- When every available attempt raises a retryable error, the loop ends by
re-raising the error of the final attempt. -/
lemma retryGo_exhaust (b : ℚ) : ∀ (r j : ℕ) (cur : ℚ) (w : List ℚ),
    (∀ k, j + 1 ≤ k → k ≤ j + r + 1 →
      ∃ err, fn k = .error err ∧ isRetryable err = true) →
    ∀ e : ε, fn (j + r + 1) = .error e →
    (retryGo fn isRetryable b (j + 1) (r + 1) cur w).1 = .failure e := by
  intro r
  induction r with
  | zero =>
    intro j cur w hall e he
    rw [retryGo_err_final fn isRetryable b (j + 1) cur w (by simpa using he)]
  | succ r ih =>
    intro j cur w hall e he
    obtain ⟨err, hferr, hrerr⟩ := hall (j + 1) (le_refl _) (by omega)
    rw [retryGo_err_retry fn isRetryable b (j + 1) r cur w hferr hrerr]
    exact ih (j + 1) (cur * b) (w ++ [cur])
      (fun k hk1 hk2 => hall k (by omega) (by omega)) e
      (by rw [show j + 1 + r + 1 = j + (r + 1) + 1 from by omega]; exact he)

/-- Reaching a non-retryable error at attempt `j + 1 + s` stops the loop
there, with exactly the backoff delays of the completed attempts slept. -/
lemma retryGo_nonretry_walk (d b : ℚ) : ∀ (s j r : ℕ) (cur : ℚ)
    (w : List ℚ) (e : ε),
    s ≤ r →
    (∀ k, j + 1 ≤ k → k < j + 1 + s →
      ∃ err, fn k = .error err ∧ isRetryable err = true) →
    fn (j + 1 + s) = .error e → isRetryable e = false →
    cur = d * b ^ j → w = geomList d b j →
    retryGo fn isRetryable b (j + 1) (r + 1) cur w =
      (.failure e, j + 1 + s, geomList d b (j + s)) := by
  intro s
  induction s with
  | zero =>
    intro j r cur w e hsr hpre hfe hnr hcur hw
    rw [retryGo_err_stop fn isRetryable b (j + 1) r cur w
      (by simpa using hfe) hnr]
    simp [hw]
  | succ s ih =>
    intro j r cur w e hsr hpre hfe hnr hcur hw
    obtain ⟨r', rfl⟩ : ∃ r', r = r' + 1 := ⟨r - 1, by omega⟩
    obtain ⟨err, hferr, hrerr⟩ := hpre (j + 1) (le_refl _) (by omega)
    rw [retryGo_err_retry fn isRetryable b (j + 1) r' cur w hferr hrerr]
    have hstep := ih (j + 1) r' (cur * b) (w ++ [cur]) e (by omega)
      (fun k hk1 hk2 => hpre k (by omega) (by omega))
      (by rw [show j + 1 + 1 + s = j + 1 + (s + 1) from by omega]; exact hfe)
      hnr (by rw [hcur, pow_succ, mul_assoc])
      (by rw [hw, hcur, geomList_succ])
    rw [hstep, show j + 1 + 1 + s = j + 1 + (s + 1) from by omega,
      show j + 1 + s = j + (s + 1) from by omega]

/-- C4: the retry executor never uses more attempts than configured; the
delays it sleeps form exactly the geometric schedule (the delay before
attempt `k`, for `k > 1`, is `delay * backoff ^ (k - 2)`, i.e. the slept list
is `geomList delay backoff (used - 1)`); and an operation failing exactly
twice with retryable errors then succeeding, under `attempts = 3`, returns
the success value with total slept time `delay + delay * backoff`. -/
theorem retry_attempt_bound_and_backoff (attempts : ℕ) (d b : ℚ) (e1 e2 : ε)
    (v : α) :
    (retryExec fn isRetryable attempts d b).2.1 ≤ attempts ∧
    (retryExec fn isRetryable attempts d b).2.2 =
      geomList d b ((retryExec fn isRetryable attempts d b).2.1 - 1) ∧
    (fn 1 = .error e1 → fn 2 = .error e2 → fn 3 = .ok v →
      isRetryable e1 = true → isRetryable e2 = true →
      retryExec fn isRetryable 3 d b = (.success v, 3, [d, d * b]) ∧
      (retryExec fn isRetryable 3 d b).2.2.sum = d + d * b) := by
  refine ⟨?_, ?_, fun h1 h2 h3 hr1 hr2 => ?_⟩
  · rcases attempts with _ | a
    · rw [retryExec, if_pos rfl]
    · rw [retryExec, if_neg (Nat.succ_ne_zero a)]
      have hs := retryGo_spec fn isRetryable d b a 0 d [] (by ring) rfl
      simpa using hs.2.2
  · rcases attempts with _ | a
    · rw [retryExec, if_pos rfl]
      simp [geomList]
    · rw [retryExec, if_neg (Nat.succ_ne_zero a)]
      have hs := retryGo_spec fn isRetryable d b a 0 d [] (by ring) rfl
      simpa using hs.1
  · have hmain : retryExec fn isRetryable 3 d b = (.success v, 3, [d, d * b]) := by
      rw [retryExec, if_neg (by norm_num)]
      calc retryGo fn isRetryable b 1 3 d []
          = retryGo fn isRetryable b 2 2 (d * b) ([] ++ [d]) :=
            retryGo_err_retry fn isRetryable b 1 1 d [] h1 hr1
        _ = retryGo fn isRetryable b 3 1 (d * b * b) ([] ++ [d] ++ [d * b]) :=
            retryGo_err_retry fn isRetryable b 2 0 (d * b) ([] ++ [d]) h2 hr2
        _ = (.success v, 3, [] ++ [d] ++ [d * b]) :=
            retryGo_ok fn isRetryable b 3 0 (d * b * b)
              ([] ++ [d] ++ [d * b]) h3
        _ = (.success v, 3, [d, d * b]) := by simp
    exact ⟨hmain, by rw [hmain]; simp⟩

/-- C7: when every attempt fails with a retryable error, the retry executor
re-raises the very error object of the last attempt (the caller sees the
original failure, not a wrapper); and a non-retryable failure at attempt `j`
propagates immediately — the run stops at attempt `j` having slept only the
`j - 1` backoff delays incurred before reaching it. -/
theorem retry_error_propagation (attempts j : ℕ) (d b : ℚ) (e : ε) :
    ((1 ≤ attempts) →
      (∀ k, 1 ≤ k → k ≤ attempts →
        ∃ err, fn k = .error err ∧ isRetryable err = true) →
      fn attempts = .error e →
      (retryExec fn isRetryable attempts d b).1 = .failure e) ∧
    (1 ≤ j → j ≤ attempts →
      (∀ k, 1 ≤ k → k < j →
        ∃ err, fn k = .error err ∧ isRetryable err = true) →
      fn j = .error e → isRetryable e = false →
      retryExec fn isRetryable attempts d b =
        (.failure e, j, geomList d b (j - 1))) := by
  constructor
  · intro ha hall he
    obtain ⟨a, rfl⟩ : ∃ a, attempts = a + 1 := ⟨attempts - 1, by omega⟩
    rw [retryExec, if_neg (Nat.succ_ne_zero a)]
    have hx := retryGo_exhaust fn isRetryable b a 0 d []
      (fun k hk1 hk2 => hall k (by omega) (by omega)) e
      (by rw [show (0 : ℕ) + a + 1 = a + 1 from by omega]; exact he)
    simpa using hx
  · intro hj1 hja hpre hfj hnr
    obtain ⟨a, rfl⟩ : ∃ a, attempts = a + 1 := ⟨attempts - 1, by omega⟩
    rw [retryExec, if_neg (Nat.succ_ne_zero a)]
    have hw := retryGo_nonretry_walk fn isRetryable d b (j - 1) 0 a d [] e
      (by omega) (fun k hk1 hk2 => hpre k (by omega) (by omega))
      (by rw [show (0 : ℕ) + 1 + (j - 1) = j from by omega]; exact hfj) hnr
      (by ring) rfl
    rw [show (0 : ℕ) + 1 + (j - 1) = j from by omega,
      show (0 : ℕ) + (j - 1) = j - 1 from by omega] at hw
    simpa using hw

end Retry

/-- Witness for C4: an operation erring on attempts 1 and 2 and succeeding on
attempt 3, with `delay = 2`, `backoff = 3`. -/
theorem retry_attempt_bound_and_backoff_witness :
    retryExec (fun k => if k ≤ 2 then Except.error () else Except.ok 42)
        (fun _ => true) 3 2 3 = (.success 42, 3, [2, 2 * 3]) ∧
    (retryExec (fun k => if k ≤ 2 then Except.error () else Except.ok 42)
        (fun _ => true) 3 2 3).2.2.sum = 2 + 2 * 3 :=
  (retry_attempt_bound_and_backoff
    (fun k => if k ≤ 2 then Except.error () else Except.ok 42)
    (fun _ => true) 3 2 3 () () 42).2.2 rfl rfl rfl rfl rfl

/-- Witness for C7: exhaustion re-raises the last error (here every attempt
fails with error `5`), and a non-retryable error `7` on attempt 1 stops a
3-attempt run immediately with nothing slept. -/
theorem retry_error_propagation_witness :
    (retryExec (fun _ => (Except.error 5 : Except ℕ ℕ)) (fun _ => true)
        2 1 2).1 = .failure 5 ∧
    retryExec (fun _ => (Except.error 7 : Except ℕ ℕ)) (fun _ => false)
        3 1 2 = (.failure 7, 1, geomList 1 2 (1 - 1)) :=
  ⟨(retry_error_propagation (fun _ => (Except.error 5 : Except ℕ ℕ))
      (fun _ => true) 2 1 1 2 5).1 (by norm_num)
      (fun k hk1 hk2 => ⟨5, rfl, rfl⟩) rfl,
   (retry_error_propagation (fun _ => (Except.error 7 : Except ℕ ℕ))
      (fun _ => false) 3 1 1 2 7).2 (by norm_num) (by norm_num)
      (fun k hk1 hk2 => absurd hk1 (by omega)) rfl rfl⟩

lemma isPrefixOf_append_self (l y : List Char) : l.isPrefixOf (l ++ y) = true := by
  induction l with
  | nil => simp [List.isPrefixOf]
  | cons c cs ih => simp [List.isPrefixOf, ih]

lemma pySplit_nil (sep : List Char) (hsep : sep ≠ []) :
    pySplit sep [] = [[]] := by
  unfold pySplit
  rw [dif_neg hsep]

lemma pySplit_cons_pos (sep : List Char) (hsep : sep ≠ []) (c : Char)
    (rest : List Char) (h : sep.isPrefixOf (c :: rest) = true) :
    pySplit sep (c :: rest) =
      [] :: pySplit sep (List.drop sep.length (c :: rest)) := by
  conv_lhs => rw [pySplit.eq_def]
  rw [dif_neg hsep]
  dsimp only
  rw [if_pos h]

lemma pySplit_cons_neg (sep : List Char) (hsep : sep ≠ []) (c : Char)
    (rest : List Char) (h : sep.isPrefixOf (c :: rest) = false) :
    pySplit sep (c :: rest) =
      match pySplit sep rest with
      | [] => [[c]]
      | t :: ts => (c :: t) :: ts := by
  conv_lhs => rw [pySplit.eq_def]
  rw [dif_neg hsep]
  dsimp only
  rw [if_neg (by simp [h])]

/-- When the separator occurs nowhere in `s`, the split is trivial. -/
lemma pySplit_of_no_occurrence (sep : List Char) (hsep : sep ≠ []) :
    ∀ s : List Char,
    (∀ s1 s2, s = s1 ++ s2 → s2 ≠ [] → sep.isPrefixOf s2 = false) →
    pySplit sep s = [s] := by
  intro s
  induction s with
  | nil => intro _; exact pySplit_nil sep hsep
  | cons c rest ih =>
    intro h
    rw [pySplit_cons_neg sep hsep c rest
      (h [] (c :: rest) rfl (List.cons_ne_nil c rest))]
    rw [ih (fun s1 s2 hs hne => h (c :: s1) s2 (by simp [hs]) hne)]

/-- Splitting at the leftmost separator occurrence. -/
lemma pySplit_first_occurrence (sep : List Char) (hsep : sep ≠ []) :
    ∀ (x y : List Char),
    (∀ x1 x2, x = x1 ++ x2 → x2 ≠ [] →
      sep.isPrefixOf (x2 ++ sep ++ y) = false) →
    pySplit sep (x ++ sep ++ y) = x :: pySplit sep y := by
  intro x
  induction x with
  | nil =>
    intro y _
    obtain ⟨c, cs, rfl⟩ : ∃ c cs, sep = c :: cs := by
      rcases sep with _ | ⟨c, cs⟩
      · exact absurd rfl hsep
      · exact ⟨c, cs, rfl⟩
    simp only [List.nil_append, List.cons_append]
    rw [pySplit_cons_pos (c :: cs) hsep c (cs ++ y)
      (by simpa using isPrefixOf_append_self (c :: cs) y)]
    congr 1
    simpa using List.drop_left (c :: cs) y
  | cons a x' ih =>
    intro y h
    have hnp : sep.isPrefixOf ((a :: x') ++ sep ++ y) = false :=
      h [] (a :: x') rfl (List.cons_ne_nil a x')
    rw [show (a :: x') ++ sep ++ y = a :: (x' ++ sep ++ y) by simp] at hnp ⊢
    rw [pySplit_cons_neg sep hsep a (x' ++ sep ++ y) hnp]
    rw [ih y (fun x1 x2 hx hne => h (a :: x1) x2 (by simp [hx]) hne)]

lemma intercalate_pair (sep x y : List Char) :
    List.intercalate sep [x, y] = x ++ sep ++ y := by
  simp [List.intercalate, List.intersperse]

/-- Decidable check that `sep` occurs nowhere in `s`. -/
def noOccur (sep : List Char) : List Char → Bool
  | [] => true
  | c :: rest => !sep.isPrefixOf (c :: rest) && noOccur sep rest

lemma noOccur_spec (sep : List Char) : ∀ s, noOccur sep s = true →
    ∀ s1 s2, s = s1 ++ s2 → s2 ≠ [] → sep.isPrefixOf s2 = false := by
  intro s
  induction s with
  | nil =>
    intro _ s1 s2 heq hne
    exact absurd (List.append_eq_nil.mp heq.symm).2 hne
  | cons c rest ih =>
    intro hno s1 s2 heq hne
    rw [noOccur, Bool.and_eq_true, Bool.not_eq_true'] at hno
    rcases s1 with _ | ⟨d, s1'⟩
    · rw [List.nil_append] at heq
      rw [← heq]
      exact hno.1
    · rw [List.cons_append] at heq
      injection heq with h1 h2
      exact ih hno.2 s1' s2 h2 hne

/-- A separating element with no occurrence on either side splits an append
uniquely. -/
lemma append_cons_eq_unique {c : Char} : ∀ {u : List Char} {v x y : List Char},
    u ++ c :: v = x ++ c :: y → c ∉ u → c ∉ v → u = x ∧ v = y := by
  intro u
  induction u with
  | nil =>
    intro v x y h hu hv
    rcases x with _ | ⟨d, x'⟩
    · rw [List.nil_append, List.nil_append] at h
      injection h with h1 h2
      exact ⟨rfl, h2⟩
    · rw [List.nil_append, List.cons_append] at h
      injection h with h1 h2
      exact absurd (h2 ▸ List.mem_append_right x' (List.mem_cons_self c y)) hv
  | cons e u' ih =>
    intro v x y h hu hv
    rcases x with _ | ⟨d, x'⟩
    · rw [List.cons_append, List.nil_append] at h
      injection h with h1 h2
      exact absurd (h1 ▸ List.mem_cons_self e u') hu
    · rw [List.cons_append, List.cons_append] at h
      injection h with h1 h2
      obtain ⟨hu', hv'⟩ := ih h2 (fun hm => hu (List.mem_cons_of_mem e hm)) hv
      exact ⟨by rw [h1, hu'], hv'⟩

/-- `"_by_"` cannot occur strictly before the displayed separator of
`verb_a_by_b` when `verb` and `a` are underscore-free, `a` is nonempty and
`a ≠ "by"`. -/
lemma bySep_no_early_occurrence (verb a b : List Char)
    (hvu : ('_' : Char) ∉ verb) (ha : a ≠ []) (hau : ('_' : Char) ∉ a)
    (haby : a ≠ ['b', 'y']) :
    ∀ x1 x2, verb ++ ('_' :: a) = x1 ++ x2 → x2 ≠ [] →
      bySep.isPrefixOf (x2 ++ bySep ++ b) = false := by
  intro x1 x2 heq hne
  rcases x2 with _ | ⟨c, x2'⟩
  · exact absurd rfl hne
  by_cases hc : c = '_'
  · subst hc
    obtain ⟨hx1, hx2⟩ := append_cons_eq_unique heq hvu hau
    rw [← hx2]
    rcases a with _ | ⟨a0, a'⟩
    · exact absurd rfl ha
    rcases a' with _ | ⟨a1, a''⟩
    · simp [bySep, List.isPrefixOf]
    rcases a'' with _ | ⟨a2, arest⟩
    · by_cases h0 : a0 = 'b'
      · by_cases h1 : a1 = 'y'
        · exact absurd (by rw [h0, h1]) haby
        · simp [bySep, List.isPrefixOf]
          exact fun _ hh1 => h1 hh1.symm
      · simp [bySep, List.isPrefixOf]
        exact fun hh0 => absurd hh0.symm h0
    · have ha2 : a2 ≠ '_' := fun hh => hau (by rw [← hh]; simp)
      simp [bySep, List.isPrefixOf]
      exact fun _ _ hh => ha2 hh.symm
  · simp [bySep, List.isPrefixOf]
    exact fun hh => absurd hh.symm hc

/-- `"_"` occurs nowhere in an underscore-free list, whatever follows. -/
lemma underscore_no_occurrence_in (l : List Char)
    (hl : ('_' : Char) ∉ l) (mid tail : List Char) :
    ∀ x1 x2, l = x1 ++ x2 → x2 ≠ [] →
      (['_'] : List Char).isPrefixOf (x2 ++ mid ++ tail) = false := by
  intro x1 x2 heq hne
  rcases x2 with _ | ⟨c, x2'⟩
  · exact absurd rfl hne
  have hcl : c ∈ l := by
    rw [heq]
    exact List.mem_append_right x1 (List.mem_cons_self c x2')
  have hc : c ≠ '_' := fun hh => hl (hh ▸ hcl)
  simp [List.isPrefixOf]
  exact fun hh => hc hh.symm

/-- `"_"` has no occurrence inside an underscore-free list. -/
lemma underscore_no_occurrence_plain (l : List Char)
    (hl : ('_' : Char) ∉ l) :
    ∀ x1 x2, l = x1 ++ x2 → x2 ≠ [] →
      (['_'] : List Char).isPrefixOf x2 = false := by
  intro x1 x2 heq hne
  rcases x2 with _ | ⟨c, x2'⟩
  · exact absurd rfl hne
  have hcl : c ∈ l := by
    rw [heq]
    exact List.mem_append_right x1 (List.mem_cons_self c x2')
  have hc : c ≠ '_' := fun hh => hl (hh ▸ hcl)
  simp [List.isPrefixOf]
  exact fun hh => hc hh.symm

/-- C5: for every lowercase identifier of the shape `verb_a_by_b` with `verb`
in the HTTP verb set, `a` a nonempty underscore-free segment other than `by`,
and `b` nonempty with no internal `_by_`, the route deriver produces
`(VERB, /a/{b})`; a bare verb produces `(VERB, /)`; and derivation is a pure
function of the identifier (identical identifiers give identical results). -/
theorem route_derive_verb_paths (verb a b : List Char)
    (hverb : verb ∈ httpMethods) (ha : a ≠ []) (hau : ('_' : Char) ∉ a)
    (haby : a ≠ ['b', 'y']) (hb : b ≠ []) (hbno : noOccur bySep b = true)
    (hal : a.map Char.toLower = a) (hbl : b.map Char.toLower = b) :
    parseMethodName ((verb ++ ('_' :: a)) ++ bySep ++ b) =
      some (verb.map Char.toUpper,
        '/' :: (a ++ ('/' :: ('{' :: (b ++ ['}']))))) ∧
    parseMethodName verb = some (verb.map Char.toUpper, ['/']) ∧
    (∀ n1 n2 : List Char, n1 = n2 →
      parseMethodName n1 = parseMethodName n2) := by
  have hbsepne : bySep ≠ [] := by simp [bySep]
  have husne : (['_'] : List Char) ≠ [] := by simp
  have hvcases : verb = ['g', 'e', 't'] ∨ verb = ['p', 'o', 's', 't'] ∨
      verb = ['p', 'u', 't'] ∨ verb = ['d', 'e', 'l', 'e', 't', 'e'] ∨
      verb = ['p', 'a', 't', 'c', 'h'] ∨
      verb = ['o', 'p', 't', 'i', 'o', 'n', 's'] ∨
      verb = ['h', 'e', 'a', 'd'] := by
    simpa [httpMethods] using hverb
  have hvl : verb.map Char.toLower = verb := by
    rcases hvcases with rfl | rfl | rfl | rfl | rfl | rfl | rfl <;> decide
  have hvu : ('_' : Char) ∉ verb := by
    rcases hvcases with rfl | rfl | rfl | rfl | rfl | rfl | rfl <;> decide
  have hsplit1 : pySplit bySep ((verb ++ ('_' :: a)) ++ bySep ++ b) =
      (verb ++ ('_' :: a)) :: pySplit bySep b :=
    pySplit_first_occurrence bySep hbsepne (verb ++ ('_' :: a)) b
      (bySep_no_early_occurrence verb a b hvu ha hau haby)
  have hsplitB : pySplit bySep b = [b] :=
    pySplit_of_no_occurrence bySep hbsepne b (noOccur_spec bySep b hbno)
  have hsegs : pySplit ['_'] (verb ++ ('_' :: a)) =
      verb :: pySplit ['_'] a := by
    rw [show verb ++ ('_' :: a) = verb ++ ['_'] ++ a by simp]
    exact pySplit_first_occurrence ['_'] husne verb a
      (underscore_no_occurrence_in verb hvu ['_'] a)
  have hsegA : pySplit ['_'] a = [a] :=
    pySplit_of_no_occurrence ['_'] husne a
      (underscore_no_occurrence_plain a hau)
  have hlow : ((verb ++ ('_' :: a)) ++ bySep ++ b).map Char.toLower =
      (verb ++ ('_' :: a)) ++ bySep ++ b := by
    simp only [List.map_append, List.map_cons, hal, hbl, hvl,
      show Char.toLower '_' = '_' from by decide,
      show List.map Char.toLower bySep = bySep from by decide]
  have hfind1 : httpMethods.find? (fun m =>
      ((verb ++ ('_' :: a)) ++ bySep ++ b == m) ||
        (m ++ ['_']).isPrefixOf ((verb ++ ('_' :: a)) ++ bySep ++ b)) =
      some verb := by
    rcases hvcases with rfl | rfl | rfl | rfl | rfl | rfl | rfl <;>
      simp [httpMethods, List.find?, List.isPrefixOf, bySep]
  have hvfind : httpMethods.find? (fun m =>
      (verb == m) || (m ++ ['_']).isPrefixOf verb) = some verb := by
    rcases hvcases with rfl | rfl | rfl | rfl | rfl | rfl | rfl <;> decide
  have hpb : pySplit bySep verb = [verb] :=
    pySplit_of_no_occurrence bySep hbsepne verb (noOccur_spec bySep verb
      (by rcases hvcases with rfl | rfl | rfl | rfl | rfl | rfl | rfl <;>
        decide))
  have hpu : pySplit ['_'] verb = [verb] :=
    pySplit_of_no_occurrence ['_'] husne verb (noOccur_spec ['_'] verb
      (by rcases hvcases with rfl | rfl | rfl | rfl | rfl | rfl | rfl <;>
        decide))
  refine ⟨?_, ?_, fun n1 n2 h => by rw [h]⟩
  · simp only [parseMethodName, hlow, hfind1, hsplit1, hsplitB, hsegs, hsegA,
      List.headD, List.drop, List.map, intercalate_pair]
    simp
    rw [intercalate_pair]
    simp
  · simp only [parseMethodName, hvl, hvfind, hpb, hpu, List.headD, List.drop,
      List.map]
    simp

lemma dropWhile_eq_self_of_none (p : Char → Bool) (l : List Char)
    (h : ∀ c ∈ l, p c = false) : l.dropWhile p = l := by
  rcases l with _ | ⟨c, rest⟩
  · rfl
  · rw [List.dropWhile_cons, if_neg]
    simp [h c (List.mem_cons_self c rest)]

lemma pyStrip_eq_self (s : List Char)
    (h : ∀ c ∈ s, c.isWhitespace = false) : pyStrip s = s := by
  unfold pyStrip
  rw [dropWhile_eq_self_of_none _ s h,
    dropWhile_eq_self_of_none _ s.reverse
      (fun c hc => h c (List.mem_reverse.mp hc)),
    List.reverse_reverse]

lemma not_ws_of_digit (c : Char) (h : c.isDigit = true) :
    c.isWhitespace = false := by
  by_contra hw
  rw [Bool.not_eq_false] at hw
  simp only [Char.isWhitespace, Bool.or_eq_true, decide_eq_true_eq] at hw
  rcases hw with ((rfl | rfl) | rfl) | rfl <;> exact absurd h (by decide)

lemma intercalate_single (sep x : List Char) :
    List.intercalate sep [x] = x := by
  simp [List.intercalate, List.intersperse]

lemma intercalate_cons_two (sep x y : List Char) (zs : List (List Char)) :
    List.intercalate sep (x :: y :: zs) =
      x ++ sep ++ List.intercalate sep (y :: zs) := by
  simp [List.intercalate, List.intersperse, List.append_assoc]

lemma mem_intercalate_digits (comps : List (List Char))
    (hdig : ∀ comp ∈ comps, ∀ ch ∈ comp, ch.isDigit = true) :
    ∀ ch ∈ List.intercalate ['.'] comps, ch.isDigit = true ∨ ch = '.' := by
  induction comps with
  | nil => simp [List.intercalate, List.intersperse]
  | cons x xs ih =>
    rcases xs with _ | ⟨y, ys⟩
    · rw [intercalate_single]
      intro ch hch
      exact Or.inl (hdig x (List.mem_cons_self x []) ch hch)
    · rw [intercalate_cons_two]
      intro ch hch
      rcases List.mem_append.mp hch with h1 | h2
      · rcases List.mem_append.mp h1 with hx | hsep
        · exact Or.inl (hdig x (List.mem_cons_self x (y :: ys)) ch hx)
        · exact Or.inr (by simpa using hsep)
      · exact ih (fun comp hc ch' hch' =>
          hdig comp (List.mem_cons_of_mem x hc) ch' hch') ch h2

lemma intercalate_head_digit (comps : List (List Char)) (hne : comps ≠ [])
    (hcne : ∀ comp ∈ comps, comp ≠ [])
    (hdig : ∀ comp ∈ comps, ∀ ch ∈ comp, ch.isDigit = true) :
    startsWithDigit (List.intercalate ['.'] comps) = true := by
  rcases comps with _ | ⟨c0, cs⟩
  · exact absurd rfl hne
  rcases hc0 : c0 with _ | ⟨ch, c0'⟩
  · exact absurd hc0 (hcne c0 (List.mem_cons_self c0 cs))
  have hchd : ch.isDigit = true :=
    hdig c0 (List.mem_cons_self c0 cs) ch (by rw [hc0]; simp)
  subst hc0
  rcases cs with _ | ⟨c1, cs'⟩
  · rw [intercalate_single]
    simpa [startsWithDigit] using hchd
  · rw [intercalate_cons_two]
    simpa [startsWithDigit, List.cons_append] using hchd

lemma matchConstraint_no_op (ver : List Char)
    (hd : startsWithDigit ver = true) :
    matchConstraint ver = some ([], ver) := by
  obtain ⟨v0, vrest, rfl⟩ : ∃ v0 vrest, ver = v0 :: vrest := by
    rcases ver with _ | ⟨v0, vrest⟩
    · exact absurd hd (by simp [startsWithDigit])
    · exact ⟨v0, vrest, rfl⟩
  have hv0 : v0.isDigit = true := by simpa [startsWithDigit] using hd
  have hne : ∀ x : Char, x.isDigit = false → (x == v0) = false := fun x hx =>
    beq_eq_false_iff_ne.mpr fun heq => by
      rw [heq, hv0] at hx
      exact Bool.noConfusion hx
  simp [matchConstraint, versionOps, List.find?, List.isPrefixOf,
    hne '>' (by decide), hne '<' (by decide), hne '=' (by decide),
    hne '!' (by decide)]

lemma matchConstraint_with_op (op ver : List Char) (hop : op ∈ versionOps)
    (hd : startsWithDigit ver = true) :
    matchConstraint (op ++ ver) = some (op, ver) := by
  obtain ⟨v0, vrest, rfl⟩ : ∃ v0 vrest, ver = v0 :: vrest := by
    rcases ver with _ | ⟨v0, vrest⟩
    · exact absurd hd (by simp [startsWithDigit])
    · exact ⟨v0, vrest, rfl⟩
  have hv0 : v0.isDigit = true := by simpa [startsWithDigit] using hd
  have hne : ∀ x : Char, x.isDigit = false → (x == v0) = false := fun x hx =>
    beq_eq_false_iff_ne.mpr fun heq => by
      rw [heq, hv0] at hx
      exact Bool.noConfusion hx
  have hops : op = ['>', '='] ∨ op = ['<', '='] ∨ op = ['>'] ∨ op = ['<'] ∨
      op = ['=', '='] ∨ op = ['!', '='] := by simpa [versionOps] using hop
  rcases hops with rfl | rfl | rfl | rfl | rfl | rfl <;>
    simp [matchConstraint, versionOps, List.find?, List.isPrefixOf,
      hne '>' (by decide), hne '<' (by decide), hne '=' (by decide),
      hne '!' (by decide)]

/-- C9: the decoration-time parse of a version constraint fails fast — a
constraint the regex rejects, or whose extracted version part does not lead
with a digit, raises the configuration error inside `version(...)` itself
(before any wrapper exists, hence before any request is served); while a
constraint made of an optional operator (defaulting to `==`) followed by a
dotted numeric version is accepted at decoration time. -/
theorem version_constraint_fail_fast (c op : List Char)
    (comps : List (List Char)) (hop : op = [] ∨ op ∈ versionOps)
    (hcne : comps ≠ []) (hcomps : ∀ comp ∈ comps, comp ≠ [])
    (hdig : ∀ comp ∈ comps, ∀ ch ∈ comp, ch.isDigit = true) :
    (matchConstraint (pyStrip c) = none →
      versionDecorator c =
        .error ("Invalid version constraint: ".data ++ c)) ∧
    (∀ opRaw rest, matchConstraint (pyStrip c) = some (opRaw, rest) →
      startsWithDigit (pyStrip rest) = false →
      versionDecorator c =
        .error ("Invalid version format: ".data ++ pyStrip rest)) ∧
    versionDecorator (op ++ List.intercalate ['.'] comps) =
      .ok ((if op = [] then ['=', '='] else op),
        List.intercalate ['.'] comps) := by
  refine ⟨fun h => ?_, fun opRaw rest h h2 => ?_, ?_⟩
  · simp only [versionDecorator]
    rw [h]
  · simp only [versionDecorator]
    rw [h]
    simp only []
    rw [if_neg (by simp [h2])]
  · set ver := List.intercalate ['.'] comps with hver
    have hchars : ∀ ch ∈ ver, ch.isWhitespace = false := by
      intro ch hch
      rcases mem_intercalate_digits comps hdig ch hch with hd | rfl
      · exact not_ws_of_digit ch hd
      · decide
    have hstart : startsWithDigit ver = true :=
      intercalate_head_digit comps hcne hcomps hdig
    have hstripv : pyStrip ver = ver := pyStrip_eq_self ver hchars
    rcases hop with rfl | hopmem
    · simp only [versionDecorator, List.nil_append]
      rw [hstripv, matchConstraint_no_op ver hstart]
      simp [hstripv, hstart]
    · have hops6 : op = ['>', '='] ∨ op = ['<', '='] ∨ op = ['>'] ∨
          op = ['<'] ∨ op = ['=', '='] ∨ op = ['!', '='] := by
        simpa [versionOps] using hopmem
      have hopne : op ≠ [] := by
        rcases hops6 with rfl | rfl | rfl | rfl | rfl | rfl <;> simp
      have hopws : ∀ ch ∈ op, ch.isWhitespace = false := by
        rcases hops6 with rfl | rfl | rfl | rfl | rfl | rfl <;> decide
      have hstrip : pyStrip (op ++ ver) = op ++ ver :=
        pyStrip_eq_self _ (fun ch hch => by
          rcases List.mem_append.mp hch with h1 | h2
          · exact hopws ch h1
          · exact hchars ch h2)
      simp only [versionDecorator]
      rw [hstrip, matchConstraint_with_op op ver hopmem hstart]
      simp only []
      rw [if_neg hopne, hstripv, if_pos hstart]

/-- Witness for C9: `abc` is rejected as a format error at decoration time,
and `>=1.2` is accepted with operator `>=` and version `1.2`. -/
theorem version_constraint_fail_fast_witness :
    versionDecorator ['a', 'b', 'c'] =
      .error ("Invalid version format: ".data ++
        pyStrip ['a', 'b', 'c']) ∧
    versionDecorator (['>', '='] ++ List.intercalate ['.'] [['1'], ['2']]) =
      .ok ((if (['>', '='] : List Char) = [] then ['=', '='] else ['>', '=']),
        List.intercalate ['.'] [['1'], ['2']]) :=
  ⟨(version_constraint_fail_fast ['a', 'b', 'c'] ['>', '='] [['1'], ['2']]
      (Or.inr (by decide)) (by decide) (by decide) (by decide)).2.1
      [] ['a', 'b', 'c'] (by decide) (by decide),
   (version_constraint_fail_fast ['a', 'b', 'c'] ['>', '='] [['1'], ['2']]
      (Or.inr (by decide)) (by decide) (by decide) (by decide)).2.2⟩

/-- Witness for C5: `get_user_by_id` derives `(GET, /user/{id})`. -/
theorem route_derive_verb_paths_witness :
    parseMethodName ((['g', 'e', 't'] ++ ('_' :: ['u', 's', 'e', 'r'])) ++
        bySep ++ ['i', 'd']) =
      some (['g', 'e', 't'].map Char.toUpper,
        '/' :: (['u', 's', 'e', 'r'] ++
          ('/' :: ('{' :: (['i', 'd'] ++ ['}']))))) :=
  (route_derive_verb_paths ['g', 'e', 't'] ['u', 's', 'e', 'r'] ['i', 'd']
    (by decide) (by decide) (by decide) (by decide) (by decide) (by decide)
    (by decide) (by decide)).1

end JecApi
